import Mathlib

/-!
Shallow embedding of `HashBrown.py` and verification of its specification.

The module under study builds a cost table for block-merging segmentations
of a time series:

* `calculate_block_indices` splits the series index range into `n_blocks`
  near-equal contiguous groups (via `numpy.array_split`);
* `calculate_pattern_hash` maps a pattern `(position, length)` to an
  integer key by a closed triangular formula;
* `translate_segmentation` scans a binary decision array of length
  `n_blocks - 1` and emits one key per pattern of the induced
  decomposition, writing the keys into a caller-supplied store array;
* `HashBrown.create_pattern_generator` enumerates all patterns and
  `HashBrown.create_table` builds the key-to-cost dictionary;
* `calculate_loss_function` sums the table values at the emitted keys.

Python `int`s are modelled by `ℤ` (sizes and indices by `ℕ`), Python's
floor division `//` by `Int.ediv` (they agree for the positive divisor 2),
a Python `dict` by an insertion-ordered association list with
overwrite-on-duplicate insertion, raised exceptions by `Option`/`Except`
error values, and the cost values (floats in the source, but treated as an
opaque summable value) by `ℤ`.
-/

namespace HashBrown

/-- Error raised by `calculate_block_indices`: `indexError` is the module's
own guard `raise IndexError(...)` for `n_blocks > series.shape[1]`, while
`valueError` is the `ValueError` that `numpy.array_split` raises for a
non-positive number of sections. -/
inductive BlockError : Type
  | indexError : BlockError
  | valueError : BlockError
deriving DecidableEq

/-- Error raised by `calculate_loss_function` (possibly propagated from
`translate_segmentation`): `nameError` models CPython's unbound-local
failure when the loop variable `i` is read after a zero-iteration loop,
`keyError` models a dictionary lookup of an absent key. -/
inductive PyError : Type
  | nameError : PyError
  | keyError : PyError
deriving DecidableEq

/-- Sizes of the sections produced by `numpy.array_split(arange(l), n)`:
`l % n` sections of size `l / n + 1` followed by `n - l % n` sections of
size `l / n` (larger sections first). -/
def splitSizes (l n : ℕ) : List ℕ :=
  (List.range n).map (fun k => if k < l % n then l / n + 1 else l / n)

/-- Inclusive `(first_index, last_index)` pairs of consecutive sections of
the given sizes, starting at `start`; this is the list comprehension
`[(idcs[0], idcs[-1]) for idcs in np.array_split(...)]` of the source,
meaningful when every section size is positive. -/
def boundsFromSizes (start : ℕ) : List ℕ → List (ℕ × ℕ)
  | [] => []
  | s :: rest => (start, start + s - 1) :: boundsFromSizes (start + s) rest

/-- Embedding of `calculate_block_indices(series, n_blocks)`;
`series_length` stands for `series.shape[1]`.  The guard
`if n_blocks > series.shape[1]: raise IndexError(...)` comes first; then
`np.array_split` raises `ValueError` when `n_blocks <= 0`, and otherwise
all sections are nonempty and the comprehension of first/last indices
succeeds. -/
def calculate_block_indices (series_length : ℕ) (n_blocks : ℤ) :
    Except BlockError (List (ℕ × ℕ)) :=
  if (series_length : ℤ) < n_blocks then .error .indexError
  else if n_blocks ≤ 0 then .error .valueError
  else .ok (boundsFromSizes 0 (splitSizes series_length n_blocks.toNat))

/-- Embedding of `calculate_pattern_hash(pattern_spec, arrlen)`:
`(length - 1) * (2 * arrlen - (length - 2)) // 2 + pos`.  Python's floor
division `//` agrees with `Int.ediv` (Lean's `/` on `ℤ`) because the
divisor 2 is positive. -/
def calculate_pattern_hash (pattern_spec : ℤ × ℤ) (arrlen : ℤ) : ℤ :=
  (pattern_spec.2 - 1) * (2 * arrlen - (pattern_spec.2 - 2)) / 2 + pattern_spec.1

/-- The hash usage that the module itself establishes: inside
`translate_segmentation` the `arrlen` argument passed to
`calculate_pattern_hash` is `arr.size + 1`, that is `n_blocks` (the
decision array has `n_blocks - 1` entries). -/
def canonical_hash (n_blocks : ℕ) (p : ℕ × ℕ) : ℤ :=
  calculate_pattern_hash ((p.1 : ℤ), (p.2 : ℤ)) (n_blocks : ℤ)

/-- Embedding of `HashBrown.create_pattern_generator`:
`((i_start, i_end + 1) for i_end in range(n_blocks) for i_start in
range(n_blocks - i_end))`. -/
def create_pattern_generator (n_blocks : ℕ) : List (ℕ × ℕ) :=
  (List.range n_blocks).flatMap fun i_end =>
    (List.range (n_blocks - i_end)).map fun i_start => (i_start, i_end + 1)

/-- One step of a Python dict comprehension: inserting an existing key
overwrites its value in place (keeping the original position), a new key
is appended. -/
def dictInsert (k v : ℤ) : List (ℤ × ℤ) → List (ℤ × ℤ)
  | [] => [(k, v)]
  | (k', v') :: rest =>
      if k' = k then (k, v) :: rest else (k', v') :: dictInsert k v rest

/-- Embedding of `HashBrown.create_table`: the dict comprehension
`{hfunc(pattern, ...) : func(pattern, series, ...) for pattern in patterns}`
over `create_pattern_generator`; `func`'s dependence on the series and the
extra arguments of both callables are folded into the two function
parameters. -/
def create_table (n_blocks : ℕ) (func : ℕ × ℕ → ℤ) (hfunc : ℕ × ℕ → ℤ) :
    List (ℤ × ℤ) :=
  (create_pattern_generator n_blocks).foldl
    (fun t p => dictInsert (hfunc p) (func p) t) []

/-- The loop of `translate_segmentation`, threading the mutable state
`(i, is_free, length, pos)` together with the store array and the write
cursor `iseg + 1` (the number of keys written so far).  The `pos` argument
is uninitialized in the source; it is first read only under `length > 1`,
which implies a preceding `1` assigned it, so the initial value passed in
is never observed.  At the end of the list the source's `i` (index of the
last processed element) is the current `i - 1`, so the final singleton key
`i + 1` is the current `i`. -/
def translateGo (arrlen : ℕ) :
    List ℕ → ℕ → Bool → ℕ → ℕ → List ℤ → ℕ → List ℤ × ℕ
  | x :: rest, i, is_free, length, pos, store, written =>
      if x = 1 then
        translateGo arrlen rest (i + 1) false (length + 1)
          (if is_free then i else pos) store written
      else
        if 1 < length then
          translateGo arrlen rest (i + 1) true 1 pos
            (store.set written (calculate_pattern_hash ((pos : ℤ), (length : ℤ)) (arrlen : ℤ)))
            (written + 1)
        else
          translateGo arrlen rest (i + 1) true 1 pos
            (store.set written (i : ℤ)) (written + 1)
  | [], i, _, length, pos, store, written =>
      if 1 < length then
        (store.set written (calculate_pattern_hash ((pos : ℤ), (length : ℤ)) (arrlen : ℤ)),
         written + 1)
      else
        (store.set written (i : ℤ), written + 1)

/-- Embedding of `translate_segmentation(arr, store)`.  The result is the
pair (mutated store, returned slice `store[:iseg + 1]`).  For the empty
decision array the source reads the loop variable `i` after a
zero-iteration `for` loop, which raises `NameError` in CPython; this is
modelled by `none`. -/
def translate_segmentation (arr : List ℕ) (store : List ℤ) :
    Option (List ℤ × List ℤ) :=
  if arr = [] then none
  else
    let r := translateGo (arr.length + 1) arr 0 true 1 0 store 0
    some (r.1, r.1.take r.2)

/-- The sequence of keys `translate_segmentation` writes for a nonempty
decision array (same recursion as `translateGo`, recording the written
values instead of threading the store). -/
def segmentationKeysGo (arrlen : ℕ) : List ℕ → ℕ → Bool → ℕ → ℕ → List ℤ
  | x :: rest, i, is_free, length, pos =>
      if x = 1 then
        segmentationKeysGo arrlen rest (i + 1) false (length + 1)
          (if is_free then i else pos)
      else
        if 1 < length then
          calculate_pattern_hash ((pos : ℤ), (length : ℤ)) (arrlen : ℤ) ::
            segmentationKeysGo arrlen rest (i + 1) true 1 pos
        else
          (i : ℤ) :: segmentationKeysGo arrlen rest (i + 1) true 1 pos
  | [], i, _, length, pos =>
      if 1 < length then
        [calculate_pattern_hash ((pos : ℤ), (length : ℤ)) (arrlen : ℤ)]
      else
        [(i : ℤ)]

/-- Keys emitted by `translate_segmentation` on a nonempty decision
array. -/
def segmentationKeys (arr : List ℕ) : List ℤ :=
  segmentationKeysGo (arr.length + 1) arr 0 true 1 0

/-- The decomposition patterns underlying the emitted keys: the same
recursion as `segmentationKeysGo`, but recording `(pos, length)` where a
run key is emitted and `(i, 1)` where a singleton key is emitted. -/
def segmentationPatternsGo : List ℕ → ℕ → Bool → ℕ → ℕ → List (ℕ × ℕ)
  | x :: rest, i, is_free, length, pos =>
      if x = 1 then
        segmentationPatternsGo rest (i + 1) false (length + 1)
          (if is_free then i else pos)
      else
        if 1 < length then
          (pos, length) :: segmentationPatternsGo rest (i + 1) true 1 pos
        else
          (i, 1) :: segmentationPatternsGo rest (i + 1) true 1 pos
  | [], i, _, length, pos =>
      if 1 < length then [(pos, length)] else [(i, 1)]

/-- Decomposition patterns of a nonempty decision array. -/
def segmentationPatterns (arr : List ℕ) : List (ℕ × ℕ) :=
  segmentationPatternsGo arr 0 true 1 0

/-- Sum of the table values at the given keys, `none` as soon as a key is
absent: `sum(hash_table[k] for k in hash_keys)` with `KeyError` modelled
by `none`. -/
def sumLookups (hash_table : List (ℤ × ℤ)) : List ℤ → Option ℤ
  | [] => some 0
  | k :: ks =>
      match List.lookup k hash_table, sumLookups hash_table ks with
      | some v, some s => some (v + s)
      | _, _ => none

/-- Embedding of `calculate_loss_function(segmentation, store, hash_table)`:
translate the segmentation (propagating its `NameError`), then sum the
table values at the produced keys (`KeyError` when one is absent). -/
def calculate_loss_function (segmentation : List ℕ) (store : List ℤ)
    (hash_table : List (ℤ × ℤ)) : Except PyError ℤ :=
  match translate_segmentation segmentation store with
  | none => .error .nameError
  | some (_, hash_keys) =>
      match sumLookups hash_table hash_keys with
      | none => .error .keyError
      | some loss => .ok loss

/-! Triangular key bases for the canonical hash. -/

/-- Number of patterns of length at most `e` in a block space of size `n`:
the key base of the length-`(e+1)` band. -/
def keyBase (n e : ℕ) : ℕ :=
  ((List.range e).map fun k => n - k).sum

lemma keyBase_zero (n : ℕ) : keyBase n 0 = 0 := rfl

lemma keyBase_succ (n e : ℕ) : keyBase n (e + 1) = keyBase n e + (n - e) := by
  simp [keyBase, List.range_succ]

lemma two_mul_keyBase (n : ℕ) : ∀ e : ℕ, e ≤ n →
    2 * (keyBase n e : ℤ) = e * (2 * n + 1 - e) := by
  intro e
  induction e with
  | zero => simp [keyBase]
  | succ e ih =>
      intro he
      have he' : e ≤ n := Nat.le_of_succ_le he
      have hcast : ((n - e : ℕ) : ℤ) = (n : ℤ) - e := by
        have := Int.ofNat_sub he'
        exact_mod_cast this
      rw [keyBase_succ]
      push_cast
      rw [hcast]
      have := ih he'
      push_cast at this
      linarith [this]

/-- Value of the source hash at a valid pattern `(s, e + 1)` when the
`arrlen` argument is `n` (as passed by `translate_segmentation`). -/
lemma canonical_hash_eval (n e s : ℕ) (he : e ≤ n) :
    canonical_hash n (s, e + 1) = ((keyBase n e + s : ℕ) : ℤ) := by
  unfold canonical_hash calculate_pattern_hash
  have h2 : ((e + 1 : ℕ) : ℤ) - 1 = (e : ℤ) := by push_cast; ring
  have h3 : 2 * (n : ℤ) - (((e + 1 : ℕ) : ℤ) - 2) = 2 * n + 1 - e := by
    push_cast; ring
  simp only [h2, h3]
  have hprod : (e : ℤ) * (2 * n + 1 - e) = 2 * (keyBase n e : ℤ) :=
    (two_mul_keyBase n e he).symm
  rw [hprod, Int.mul_ediv_cancel_left _ (by norm_num)]
  push_cast
  ring

/-- Singleton patterns hash to their own position, whatever `arrlen` is. -/
lemma hash_singleton (i : ℕ) (a : ℤ) :
    calculate_pattern_hash ((i : ℤ), (1 : ℤ)) a = (i : ℤ) := by
  unfold calculate_pattern_hash
  norm_num

/-! Properties of the pattern enumeration. -/

lemma mem_create_pattern_generator (n : ℕ) (p : ℕ × ℕ) :
    p ∈ create_pattern_generator n ↔ 1 ≤ p.2 ∧ p.1 + p.2 ≤ n := by
  unfold create_pattern_generator
  simp only [List.mem_flatMap, List.mem_map, List.mem_range]
  constructor
  · rintro ⟨e, he, s, hs, rfl⟩
    simp only
    omega
  · rintro ⟨h1, h2⟩
    refine ⟨p.2 - 1, by omega, p.1, by omega, ?_⟩
    have : p.2 - 1 + 1 = p.2 := by omega
    rw [this]

/-- The enumeration is strictly increasing for the length-major,
position-minor lexicographic order. -/
lemma pattern_generator_pairwise (n : ℕ) :
    (create_pattern_generator n).Pairwise
      (fun p q => p.2 < q.2 ∨ (p.2 = q.2 ∧ p.1 < q.1)) := by
  unfold create_pattern_generator
  have main : ∀ es : List ℕ, es.Pairwise (· < ·) →
      (es.flatMap fun i_end =>
          (List.range (n - i_end)).map fun i_start => (i_start, i_end + 1)).Pairwise
        (fun p q => p.2 < q.2 ∨ (p.2 = q.2 ∧ p.1 < q.1)) := by
    intro es hes
    induction es with
    | nil => simp
    | cons e es ih =>
        rw [List.flatMap_cons, List.pairwise_append]
        refine ⟨?_, ih (List.Pairwise.of_cons hes), ?_⟩
        · have : (List.range (n - e)).Pairwise (· < ·) :=
            List.pairwise_lt_range _
          refine List.Pairwise.map _ ?_ this
          intro a b hab
          exact Or.inr ⟨rfl, hab⟩
        · intro p hp q hq
          rcases List.mem_map.mp hp with ⟨s, _, rfl⟩
          rcases List.mem_flatMap.mp hq with ⟨e', he', hq'⟩
          rcases List.mem_map.mp hq' with ⟨s', _, rfl⟩
          have : e < e' := (List.pairwise_cons.mp hes).1 e' he'
          exact Or.inl (by simpa using Nat.succ_lt_succ this)
  exact main _ (List.pairwise_lt_range n)

lemma pattern_generator_nodup (n : ℕ) :
    (create_pattern_generator n).Nodup := by
  refine (pattern_generator_pairwise n).imp ?_
  intro p q h
  rcases h with h | ⟨_, h⟩ <;> exact fun hc => by subst hc; omega

lemma pattern_generator_length (n : ℕ) :
    (create_pattern_generator n).length = keyBase n n := by
  unfold create_pattern_generator keyBase
  rw [List.length_flatMap]
  congr 1
  apply List.map_congr_left
  intro e _
  simp

lemma two_mul_total (n : ℕ) : 2 * keyBase n n = n * (n + 1) := by
  have h := two_mul_keyBase n n le_rfl
  have : (n : ℤ) * (2 * n + 1 - n) = (n : ℤ) * (n + 1) := by ring
  rw [this] at h
  exact_mod_cast h

lemma keyBase_total (n : ℕ) : keyBase n n = n * (n + 1) / 2 := by
  have h := two_mul_total n
  omega

lemma flatMap_congr_left {α β : Type} {f g : α → List β} :
    ∀ l : List α, (∀ a ∈ l, f a = g a) → l.flatMap f = l.flatMap g := by
  intro l
  induction l with
  | nil => intro _; rfl
  | cons a l ih =>
      intro h
      rw [List.flatMap_cons, List.flatMap_cons, h a (List.mem_cons_self a l),
        ih fun b hb => h b (List.mem_cons_of_mem a hb)]

/-- Concatenating the key bands of lengths `1 .. m` gives the contiguous
range `[0, keyBase n m)`. -/
lemma flatMap_range'_keyBase (n : ℕ) : ∀ m, m ≤ n →
    ((List.range m).flatMap fun e => List.range' (keyBase n e) (n - e)) =
      List.range' 0 (keyBase n m) := by
  intro m
  induction m with
  | zero => intro _; simp [keyBase]
  | succ m ih =>
      intro hm
      rw [List.range_succ, List.flatMap_append, ih (Nat.le_of_succ_le hm),
        List.flatMap_cons, List.flatMap_nil, List.append_nil, keyBase_succ,
        Nat.add_comm (keyBase n m) (n - m)]
      have := List.range'_append_1 0 (keyBase n m) (n - m)
      simpa using this

/-- The canonical hash maps the enumeration order exactly onto
`0, 1, ..., n*(n+1)/2 - 1`. -/
lemma map_canonical_hash_pattern_generator (n : ℕ) :
    (create_pattern_generator n).map (canonical_hash n) =
      (List.range (n * (n + 1) / 2)).map (fun k : ℕ => (k : ℤ)) := by
  unfold create_pattern_generator
  rw [List.map_flatMap]
  have inner : ∀ e ∈ List.range n,
      ((List.range (n - e)).map fun i_start => (i_start, e + 1)).map (canonical_hash n)
        = (List.range' (keyBase n e) (n - e)).map (fun k : ℕ => (k : ℤ)) := by
    intro e he
    have he' : e ≤ n := le_of_lt (List.mem_range.mp he)
    rw [List.map_map, List.range'_eq_map_range, List.map_map]
    apply List.map_congr_left
    intro s _
    simp only [Function.comp_apply]
    rw [canonical_hash_eval n e s he']
  calc (List.range n).flatMap
        (fun e => ((List.range (n - e)).map fun i_start => (i_start, e + 1)).map (canonical_hash n))
      = (List.range n).flatMap
        (fun e => (List.range' (keyBase n e) (n - e)).map (fun k : ℕ => (k : ℤ))) := by
        exact flatMap_congr_left _ inner
    _ = ((List.range n).flatMap fun e => List.range' (keyBase n e) (n - e)).map
          (fun k : ℕ => (k : ℤ)) := by
        rw [List.map_flatMap]
    _ = (List.range (n * (n + 1) / 2)).map (fun k : ℕ => (k : ℤ)) := by
        rw [flatMap_range'_keyBase n n le_rfl, ← keyBase_total,
          List.range_eq_range']

lemma map_canonical_hash_nodup (n : ℕ) :
    ((create_pattern_generator n).map (canonical_hash n)).Nodup := by
  rw [map_canonical_hash_pattern_generator]
  exact (List.nodup_range _).map (fun a b h => by exact_mod_cast h)

lemma canonical_hash_mem_range (n : ℕ) (p : ℕ × ℕ)
    (hp : 1 ≤ p.2 ∧ p.1 + p.2 ≤ n) :
    0 ≤ canonical_hash n p ∧ canonical_hash n p < ((n * (n + 1) / 2 : ℕ) : ℤ) := by
  have hmem : canonical_hash n p ∈ (create_pattern_generator n).map (canonical_hash n) :=
    List.mem_map_of_mem _ ((mem_create_pattern_generator n p).mpr hp)
  rw [map_canonical_hash_pattern_generator] at hmem
  rcases List.mem_map.mp hmem with ⟨k, hk, hkey⟩
  have hk' : k < n * (n + 1) / 2 := List.mem_range.mp hk
  constructor
  · rw [← hkey]; exact Int.ofNat_nonneg k
  · rw [← hkey]; exact_mod_cast hk'

/-- C1, amended: with the `arrlen` argument set to `n_blocks` — the value
`translate_segmentation` actually passes (`arr.size + 1`) — the pattern
key formula is a bijection from the valid patterns onto the integers
`0 .. n_blocks*(n_blocks+1)/2 - 1`, and the halved product is always
even, so the integer division is exact. -/
theorem pattern_hash_bijection (n : ℕ) (_hn : 1 ≤ n) :
    Set.BijOn (canonical_hash n)
      {p : ℕ × ℕ | 1 ≤ p.2 ∧ p.1 + p.2 ≤ n}
      {k : ℤ | 0 ≤ k ∧ k < ((n * (n + 1) / 2 : ℕ) : ℤ)}
    ∧ ∀ p : ℕ × ℕ, 1 ≤ p.2 ∧ p.1 + p.2 ≤ n →
        (2 : ℤ) ∣ ((p.2 : ℤ) - 1) * (2 * (n : ℤ) - ((p.2 : ℤ) - 2)) := by
  refine ⟨⟨?_, ?_, ?_⟩, ?_⟩
  · intro p hp
    exact canonical_hash_mem_range n p hp
  · intro p hp q hq heq
    exact List.inj_on_of_nodup_map (map_canonical_hash_nodup n)
      ((mem_create_pattern_generator n p).mpr hp)
      ((mem_create_pattern_generator n q).mpr hq) heq
  · intro k hk
    rcases hk with ⟨hk0, hkN⟩
    have hval : ((k.toNat : ℕ) : ℤ) = k := Int.toNat_of_nonneg hk0
    have hkN' : k.toNat < n * (n + 1) / 2 := by omega
    have hmem : ((k.toNat : ℕ) : ℤ) ∈
        (List.range (n * (n + 1) / 2)).map (fun k : ℕ => (k : ℤ)) :=
      List.mem_map_of_mem _ (List.mem_range.mpr hkN')
    rw [← map_canonical_hash_pattern_generator] at hmem
    rcases List.mem_map.mp hmem with ⟨p, hpmem, hph⟩
    exact ⟨p, (mem_create_pattern_generator n p).mp hpmem, by rw [hph, hval]⟩
  · rintro p ⟨h1, _⟩
    rcases Int.even_or_odd (p.2 : ℤ) with he | ho
    · rcases he with ⟨c, hc⟩
      have : (2 : ℤ) ∣ (2 * (n : ℤ) - ((p.2 : ℤ) - 2)) := ⟨(n : ℤ) - c + 1, by omega⟩
      exact this.mul_left _
    · rcases ho with ⟨c, hc⟩
      have : (2 : ℤ) ∣ ((p.2 : ℤ) - 1) := ⟨c, by omega⟩
      exact this.mul_right _

/-- Witness for C1 at `n_blocks = 2`. -/
theorem pattern_hash_bijection_witness :
    Set.BijOn (canonical_hash 2)
      {p : ℕ × ℕ | 1 ≤ p.2 ∧ p.1 + p.2 ≤ 2}
      {k : ℤ | 0 ≤ k ∧ k < ((2 * (2 + 1) / 2 : ℕ) : ℤ)}
    ∧ ∀ p : ℕ × ℕ, 1 ≤ p.2 ∧ p.1 + p.2 ≤ 2 →
        (2 : ℤ) ∣ ((p.2 : ℤ) - 1) * (2 * (2 : ℤ) - ((p.2 : ℤ) - 2)) :=
  pattern_hash_bijection 2 (by norm_num)

/-- Counterexample to C1 as stated: with `arrlen = n_blocks - 1` (the
spec's formula) and `n_blocks = 2`, the two distinct valid patterns
`(1, 1)` and `(0, 2)` receive the same key `1`, so the key map is not
injective on valid patterns. -/
theorem pattern_hash_spec_arrlen_not_injective :
    ¬ Set.InjOn
        (fun p : ℕ × ℕ => calculate_pattern_hash ((p.1 : ℤ), (p.2 : ℤ)) ((2 : ℤ) - 1))
        {p : ℕ × ℕ | 1 ≤ p.2 ∧ p.1 + p.2 ≤ 2} := by
  intro h
  have h11 : ((1, 1) : ℕ × ℕ) ∈ {p : ℕ × ℕ | 1 ≤ p.2 ∧ p.1 + p.2 ≤ 2} := by
    constructor <;> norm_num
  have h02 : ((0, 2) : ℕ × ℕ) ∈ {p : ℕ × ℕ | 1 ≤ p.2 ∧ p.1 + p.2 ≤ 2} := by
    constructor <;> norm_num
  have heq := h h11 h02 (by decide)
  exact absurd heq (by decide)

/-- C3: the pattern enumeration has exactly `n_blocks*(n_blocks+1)/2`
entries, contains precisely the valid patterns (each once, so no
duplicates), and is strictly increasing in the canonical length-major,
position-minor order. -/
theorem pattern_generator_canonical (n : ℕ) :
    (create_pattern_generator n).length = n * (n + 1) / 2
    ∧ (∀ p : ℕ × ℕ, p ∈ create_pattern_generator n ↔ 1 ≤ p.2 ∧ p.1 + p.2 ≤ n)
    ∧ (create_pattern_generator n).Nodup
    ∧ (create_pattern_generator n).Pairwise
        (fun p q => p.2 < q.2 ∨ (p.2 = q.2 ∧ p.1 < q.1)) :=
  ⟨by rw [pattern_generator_length, keyBase_total],
   mem_create_pattern_generator n, pattern_generator_nodup n,
   pattern_generator_pairwise n⟩

/-! Store-threading of `translate_segmentation`. -/

/-- Write the values `ks` into consecutive positions of `store` starting
at index `c`. -/
def writeFrom : List ℤ → ℕ → List ℤ → List ℤ
  | store, _, [] => store
  | store, c, k :: ks => writeFrom (store.set c k) (c + 1) ks

lemma writeFrom_eq : ∀ (ks : List ℤ) (c : ℕ) (store : List ℤ),
    c + ks.length ≤ store.length →
    writeFrom store c ks = store.take c ++ ks ++ store.drop (c + ks.length) := by
  intro ks
  induction ks with
  | nil =>
      intro c store h
      simp [writeFrom]
  | cons k ks ih =>
      intro c store h
      have hc : c < store.length := by
        simp only [List.length_cons] at h
        omega
      rw [writeFrom, ih (c + 1) (store.set c k)
        (by rw [List.length_set]; simp only [List.length_cons] at h; omega)]
      have h1 : (store.set c k).take (c + 1) = store.take c ++ [k] := by
        rw [List.set_take, ← List.take_concat_get store c hc, List.concat_eq_append,
          List.set_append_right _ _ (by simp [Nat.min_eq_left (le_of_lt hc)]),
          List.length_take, Nat.min_eq_left (le_of_lt hc)]
        simp
      have h2 : (store.set c k).drop (c + 1 + ks.length) = store.drop (c + 1 + ks.length) :=
        List.drop_set_of_lt _ _ (by omega)
      have h3 : c + 1 + ks.length = c + (ks.length + 1) := by omega
      rw [h1, h2, h3]
      simp [List.append_assoc]

lemma translateGo_eq (arrlen : ℕ) (rest : List ℕ) :
    ∀ (i : ℕ) (f : Bool) (len pos : ℕ) (store : List ℤ) (c : ℕ),
    translateGo arrlen rest i f len pos store c =
      (writeFrom store c (segmentationKeysGo arrlen rest i f len pos),
       c + (segmentationKeysGo arrlen rest i f len pos).length) := by
  induction rest with
  | nil =>
      intro i f len pos store c
      by_cases hl : 1 < len <;>
        simp [translateGo, segmentationKeysGo, writeFrom, hl]
  | cons x rest ih =>
      intro i f len pos store c
      by_cases hx : x = 1
      · simp [translateGo, segmentationKeysGo, hx, ih]
      · by_cases hl : 1 < len <;>
          · simp [translateGo, segmentationKeysGo, hx, hl, ih, writeFrom]
            omega

lemma keysGo_eq_map_patternsGo (arrlen : ℕ) (rest : List ℕ) :
    ∀ (i : ℕ) (f : Bool) (len pos : ℕ),
    segmentationKeysGo arrlen rest i f len pos =
      (segmentationPatternsGo rest i f len pos).map
        (fun p : ℕ × ℕ => calculate_pattern_hash ((p.1 : ℤ), (p.2 : ℤ)) (arrlen : ℤ)) := by
  induction rest with
  | nil =>
      intro i f len pos
      by_cases hl : 1 < len <;>
        simp [segmentationKeysGo, segmentationPatternsGo, hl, hash_singleton]
  | cons x rest ih =>
      intro i f len pos
      by_cases hx : x = 1
      · simp [segmentationKeysGo, segmentationPatternsGo, hx, ih]
      · by_cases hl : 1 < len <;>
          simp [segmentationKeysGo, segmentationPatternsGo, hx, hl, ih, hash_singleton]

lemma segmentationKeys_eq_map (arr : List ℕ) :
    segmentationKeys arr =
      (segmentationPatterns arr).map
        (fun p : ℕ × ℕ =>
          calculate_pattern_hash ((p.1 : ℤ), (p.2 : ℤ)) ((arr.length + 1 : ℕ) : ℤ)) :=
  keysGo_eq_map_patternsGo (arr.length + 1) arr 0 true 1 0

/-- Every pattern the translator emits has length at least 1 (run
patterns are only emitted under the `length > 1` guard, singletons have
length 1). -/
lemma patternsGo_len_pos (rest : List ℕ) :
    ∀ (i : ℕ) (f : Bool) (len pos : ℕ),
    ∀ p ∈ segmentationPatternsGo rest i f len pos, 1 ≤ p.2 := by
  induction rest with
  | nil =>
      intro i f len pos p hp
      by_cases hl : 1 < len
      · rw [segmentationPatternsGo, if_pos hl, List.mem_singleton] at hp
        subst hp
        omega
      · rw [segmentationPatternsGo, if_neg hl, List.mem_singleton] at hp
        subst hp
        omega
  | cons x rest ih =>
      intro i f len pos p hp
      by_cases hx : x = 1
      · rw [segmentationPatternsGo, if_pos hx] at hp
        exact ih _ _ _ _ p hp
      · by_cases hl : 1 < len
        · rw [segmentationPatternsGo, if_neg hx, if_pos hl, List.mem_cons] at hp
          rcases hp with rfl | hp
          · omega
          · exact ih _ _ _ _ p hp
        · rw [segmentationPatternsGo, if_neg hx, if_neg hl, List.mem_cons] at hp
          rcases hp with rfl | hp
          · omega
          · exact ih _ _ _ _ p hp

/-- The emitted patterns tile the remaining blocks: starting from a
coherent scanner state, the concatenation of the block ranges of the
emitted patterns is exactly the contiguous range from the start of the
current pattern to the final block. -/
lemma patternsGo_cover (rest : List ℕ) :
    ∀ (i : ℕ) (f : Bool) (len pos start : ℕ),
    (f = true → len = 1 ∧ start = i) →
    (f = false → 2 ≤ len ∧ pos + len = i + 1 ∧ start = pos) →
    ((segmentationPatternsGo rest i f len pos).flatMap
        fun p => List.range' p.1 p.2) =
      List.range' start (i + rest.length + 1 - start) := by
  induction rest with
  | nil =>
      intro i f len pos start h1 h2
      cases f
      · rcases h2 rfl with ⟨ha, hb, hst⟩
        rw [hst]
        have hl : 1 < len := by omega
        rw [segmentationPatternsGo, if_pos hl, List.flatMap_cons, List.flatMap_nil,
          List.append_nil]
        have hc : i + List.length ([] : List ℕ) + 1 - pos = len := by
          simp only [List.length_nil]
          omega
        rw [hc]
      · rcases h1 rfl with ⟨rfl, hst⟩
        rw [hst]
        have hl : ¬ (1 < 1) := by omega
        rw [segmentationPatternsGo, if_neg hl, List.flatMap_cons, List.flatMap_nil,
          List.append_nil]
        have hc : i + List.length ([] : List ℕ) + 1 - i = 1 := by
          simp only [List.length_nil]
          omega
        rw [hc]
  | cons x rest ih =>
      intro i f len pos start h1 h2
      by_cases hx : x = 1
      · cases f
        · rcases h2 rfl with ⟨ha, hb, hst⟩
          rw [hst]
          rw [segmentationPatternsGo, if_pos hx]
          rw [show (if (false : Bool) = true then i else pos) = pos from rfl]
          rw [ih (i + 1) false (len + 1) pos pos (by intro h; cases h)
              (by intro; refine ⟨by omega, by omega, rfl⟩)]
          have hc : i + 1 + rest.length + 1 - pos =
              i + (x :: rest).length + 1 - pos := by
            simp only [List.length_cons]
            omega
          rw [hc]
        · rcases h1 rfl with ⟨rfl, hst⟩
          rw [hst]
          rw [segmentationPatternsGo, if_pos hx]
          rw [show (if (true : Bool) = true then i else pos) = i from rfl]
          rw [ih (i + 1) false (1 + 1) i i (by intro h; cases h)
              (by intro; refine ⟨by omega, by omega, rfl⟩)]
          have hc : i + 1 + rest.length + 1 - i =
              i + (x :: rest).length + 1 - i := by
            simp only [List.length_cons]
            omega
          rw [hc]
      · cases f
        · rcases h2 rfl with ⟨ha, hb, hst⟩
          rw [hst]
          have hl : 1 < len := by omega
          rw [segmentationPatternsGo, if_neg hx, if_pos hl, List.flatMap_cons,
            ih (i + 1) true 1 pos (i + 1) (by intro; exact ⟨rfl, rfl⟩)
              (by intro h; cases h)]
          have hc1 : i + 1 + rest.length + 1 - (i + 1) = rest.length + 1 := by
            omega
          rw [hc1]
          have happ := List.range'_append_1 pos len (rest.length + 1)
          rw [hb] at happ
          rw [happ]
          have hc2 : rest.length + 1 + len = i + (x :: rest).length + 1 - pos := by
            simp only [List.length_cons]
            omega
          rw [hc2]
        · rcases h1 rfl with ⟨rfl, hst⟩
          rw [hst]
          have hl : ¬ (1 < 1) := by omega
          rw [segmentationPatternsGo, if_neg hx, if_neg hl, List.flatMap_cons,
            ih (i + 1) true 1 pos (i + 1) (by intro; exact ⟨rfl, rfl⟩)
              (by intro h; cases h)]
          have hc1 : i + 1 + rest.length + 1 - (i + 1) = rest.length + 1 := by
            omega
          rw [hc1]
          have happ := List.range'_append_1 i 1 (rest.length + 1)
          rw [happ]
          have hc2 : rest.length + 1 + 1 = i + (x :: rest).length + 1 - i := by
            simp only [List.length_cons]
            omega
          rw [hc2]

/-- The decomposition of a decision array tiles the whole block range. -/
lemma segmentationPatterns_cover (arr : List ℕ) :
    ((segmentationPatterns arr).flatMap fun p => List.range' p.1 p.2) =
      List.range (arr.length + 1) := by
  have h := patternsGo_cover arr 0 true 1 0 0 (fun _ => ⟨rfl, rfl⟩) (by intro h; cases h)
  simp only [Nat.sub_zero, Nat.zero_add] at h
  rw [segmentationPatterns, h, List.range_eq_range']

/-- Behaviour of `translate_segmentation` on a nonempty decision array
with a sufficiently large store: the keys are written at the front of the
store, the rest of the store is untouched, and the returned slice is
exactly the key list. -/
lemma translate_segmentation_spec (arr : List ℕ) (store : List ℤ)
    (hne : arr ≠ []) (hlen : (segmentationKeys arr).length ≤ store.length) :
    translate_segmentation arr store =
      some (segmentationKeys arr ++ store.drop (segmentationKeys arr).length,
            segmentationKeys arr) := by
  unfold translate_segmentation
  rw [if_neg hne]
  have h := translateGo_eq (arr.length + 1) arr 0 true 1 0 store 0
  rw [segmentationKeys] at hlen
  simp only [h, writeFrom_eq _ 0 store (by simpa using hlen), List.take_zero,
    List.nil_append, Nat.zero_add]
  rw [List.take_left' rfl]
  rfl

/-- C2, amended to nonempty decision arrays: when `translate_segmentation`
returns (it fails on the empty array), the keys it returns are exactly the
hashes (with `arrlen = n_blocks`) of the decomposition patterns, the block
ranges of those patterns tile `[0, n_blocks)` in order with no gaps or
overlaps, every pattern has length at least 1, and the pattern lengths sum
to `n_blocks = arr.length + 1`. -/
theorem translate_segmentation_partition (arr : List ℕ) (store st ret : List ℤ)
    (hstore : (segmentationKeys arr).length ≤ store.length)
    (h : translate_segmentation arr store = some (st, ret)) :
    ret = (segmentationPatterns arr).map
        (fun p : ℕ × ℕ =>
          calculate_pattern_hash ((p.1 : ℤ), (p.2 : ℤ)) ((arr.length + 1 : ℕ) : ℤ))
    ∧ ((segmentationPatterns arr).flatMap fun p => List.range' p.1 p.2) =
        List.range (arr.length + 1)
    ∧ ((segmentationPatterns arr).map Prod.snd).sum = arr.length + 1
    ∧ ∀ p ∈ segmentationPatterns arr, 1 ≤ p.2 := by
  have hne : arr ≠ [] := by
    intro hnil
    rw [hnil] at h
    simp [translate_segmentation] at h
  rw [translate_segmentation_spec arr store hne hstore] at h
  simp only [Option.some.injEq, Prod.mk.injEq] at h
  obtain ⟨_, hret⟩ := h
  refine ⟨?_, segmentationPatterns_cover arr, ?_, patternsGo_len_pos arr 0 true 1 0⟩
  · rw [← hret, segmentationKeys_eq_map]
  · have hlen := congrArg List.length (segmentationPatterns_cover arr)
    rw [List.length_flatMap, List.length_range] at hlen
    rw [← hlen]
    congr 1
    apply List.map_congr_left
    intro p _
    simp

/-- Witness for C2 on the spec's concrete scenario `n_blocks = 4`,
decisions `[1, 0, 1]`: the decomposition is `[(0, 2), (2, 2)]` with keys
`[4, 6]`. -/
theorem translate_segmentation_partition_witness :
    ([4, 6] : List ℤ) = (segmentationPatterns [1, 0, 1]).map
        (fun p : ℕ × ℕ =>
          calculate_pattern_hash ((p.1 : ℤ), (p.2 : ℤ))
            ((([1, 0, 1] : List ℕ).length + 1 : ℕ) : ℤ))
    ∧ ((segmentationPatterns [1, 0, 1]).flatMap fun p => List.range' p.1 p.2) =
        List.range (([1, 0, 1] : List ℕ).length + 1)
    ∧ ((segmentationPatterns [1, 0, 1]).map Prod.snd).sum =
        ([1, 0, 1] : List ℕ).length + 1
    ∧ ∀ p ∈ segmentationPatterns [1, 0, 1], 1 ≤ p.2 :=
  translate_segmentation_partition [1, 0, 1] [0, 0, 0, 0] [4, 6, 0, 0] [4, 6]
    (by decide) (by decide)

/-- Counterexample to C2 as stated: at `n_blocks = 1` the decision array
is empty and `translate_segmentation` fails (unbound loop variable), even
with ample store, so it emits no pattern keys at all and in particular no
partition of the one-block range. -/
theorem translate_segmentation_empty_counterexample :
    translate_segmentation [] [0, 0] = none := rfl

/-- C5: at `n_blocks = 1` the decision sequence is empty; the source then
evaluates `i + 1` with the loop variable `i` unbound and raises
`NameError` instead of returning the singleton key list `[0]`, and the
loss function propagates that failure instead of returning the table's
only entry. -/
theorem translate_segmentation_single_block_name_error :
    translate_segmentation [] [0] = none
    ∧ calculate_loss_function [] [0] [(0, 5)] = Except.error PyError.nameError :=
  ⟨rfl, rfl⟩

/-- C10, amended to nonempty decision arrays: with a store large enough
for the emitted keys, `translate_segmentation` writes the `k` emitted keys
into positions `0 .. k-1` of the store, leaves every position from `k` on
unchanged, keeps the store length, and returns exactly the prefix
`store[:k]`.  (The decision array is only read: the embedding threads no
state for it.) -/
theorem translate_segmentation_frame (arr : List ℕ) (store : List ℤ)
    (hne : arr ≠ []) (hstore : (segmentationKeys arr).length ≤ store.length) :
    ∃ st : List ℤ,
      translate_segmentation arr store =
        some (st, st.take (segmentationKeys arr).length)
      ∧ st.take (segmentationKeys arr).length = segmentationKeys arr
      ∧ st.drop (segmentationKeys arr).length =
          store.drop (segmentationKeys arr).length
      ∧ st.length = store.length := by
  refine ⟨segmentationKeys arr ++ store.drop (segmentationKeys arr).length,
    ?_, List.take_left' rfl, List.drop_left' rfl, ?_⟩
  · rw [translate_segmentation_spec arr store hne hstore, List.take_left' rfl]
  · rw [List.length_append, List.length_drop]
    omega

/-- Witness for C10 on `arr = [0, 1]`, `store = [7, 7, 7]`: keys `[0, 2]`
are written, position 2 keeps the value `7`. -/
theorem translate_segmentation_frame_witness :
    ∃ st : List ℤ,
      translate_segmentation [0, 1] [7, 7, 7] =
        some (st, st.take (segmentationKeys [0, 1]).length)
      ∧ st.take (segmentationKeys [0, 1]).length = segmentationKeys [0, 1]
      ∧ st.drop (segmentationKeys [0, 1]).length =
          ([7, 7, 7] : List ℤ).drop (segmentationKeys [0, 1]).length
      ∧ st.length = ([7, 7, 7] : List ℤ).length :=
  translate_segmentation_frame [0, 1] [7, 7, 7] (by decide) (by decide)

/-- Counterexample to C10 as stated: on the empty decision array the
source raises instead of returning any prefix of the store. -/
theorem translate_segmentation_empty_no_prefix :
    translate_segmentation [] [5, 7] = none := rfl

/-! Dictionary semantics of the table build. -/

lemma lookup_dictInsert (k v k' : ℤ) :
    ∀ t : List (ℤ × ℤ),
    List.lookup k' (dictInsert k v t) =
      if k' = k then some v else List.lookup k' t := by
  intro t
  induction t with
  | nil =>
      by_cases h : k' = k
      · simp [dictInsert, List.lookup, beq_iff_eq.mpr h, h]
      · simp [dictInsert, List.lookup, beq_eq_false_iff_ne.mpr h, h]
  | cons e t ih =>
      obtain ⟨ke, ve⟩ := e
      by_cases hek : ke = k
      · subst hek
        by_cases h : k' = ke
        · simp [dictInsert, List.lookup, beq_iff_eq.mpr h, h]
        · simp [dictInsert, List.lookup, beq_eq_false_iff_ne.mpr h, h]
      · by_cases h : k' = ke
        · subst h
          simp [dictInsert, List.lookup, beq_self_eq_true,
            if_neg (fun hc : k' = k => hek hc)]
        · simp [dictInsert, List.lookup, beq_eq_false_iff_ne.mpr h, h, hek, ih]

lemma lookup_foldl_dictInsert (hfn cfn : ℕ × ℕ → ℤ) :
    ∀ (ps : List (ℕ × ℕ)) (t : List (ℤ × ℤ)) (k : ℤ),
    List.lookup k (ps.foldl (fun t p => dictInsert (hfn p) (cfn p) t) t) =
      ((ps.reverse.find? fun p => hfn p == k).map cfn).or (List.lookup k t) := by
  intro ps
  induction ps with
  | nil =>
      intro t k
      simp
  | cons p ps ih =>
      intro t k
      rw [List.foldl_cons, ih, List.reverse_cons, List.find?_append]
      cases hfind : ps.reverse.find? fun q => hfn q == k
      · rw [lookup_dictInsert]
        by_cases he : hfn p = k
        · have hb : (hfn p == k) = true := beq_iff_eq.mpr he
          simp [List.find?, hb, if_pos he.symm]
        · have hb : (hfn p == k) = false := beq_eq_false_iff_ne.mpr he
          simp [List.find?, hb, if_neg (fun hc : k = hfn p => he hc.symm)]
      · simp

/-- C6, amended: `create_table` never fails; it builds the table by
Python-dict insertion, so for any key the stored cost is that of the
*last* enumerated pattern hashing to it — on a hash collision the earlier
pattern's cost is silently overwritten rather than reported. -/
theorem create_table_last_wins (n : ℕ) (func hfunc : ℕ × ℕ → ℤ) (k : ℤ) :
    List.lookup k (create_table n func hfunc) =
      ((create_pattern_generator n).reverse.find? fun p => hfunc p == k).map func := by
  unfold create_table
  rw [lookup_foldl_dictInsert]
  simp [List.lookup]

/-- Counterexample to C6 as stated: with the constant (colliding) hash
and the cost function `length`, `create_table` on two blocks returns the
table `[(0, 2)]` — no error is raised, and the costs `1` of the two
singleton patterns `(0,1)`, `(1,1)` (enumerated before `(0,2)`) are
silently discarded. -/
theorem create_table_collision_counterexample :
    create_table 2 (fun p => (p.2 : ℤ)) (fun _ => 0) = [(0, 2)] := rfl

lemma find?_of_nodup_map {β : Type} [BEq β] [LawfulBEq β] (g : ℕ × ℕ → β) :
    ∀ (ps : List (ℕ × ℕ)), (ps.map g).Nodup →
    ∀ p ∈ ps, ps.find? (fun q => g q == g p) = some p := by
  intro ps
  induction ps with
  | nil =>
      intro _ p hp
      cases hp
  | cons q ps ih =>
      intro hnd p hp
      have hnd' := hnd
      rw [List.map_cons, List.nodup_cons] at hnd'
      obtain ⟨hq, htail⟩ := hnd'
      by_cases he : g q = g p
      · have hpq : p = q := by
          rcases List.mem_cons.mp hp with rfl | hmem
          · rfl
          · exact absurd (he ▸ List.mem_map_of_mem g hmem) hq
        subst hpq
        rw [List.find?_cons_of_pos _ (by simp)]
      · have hmem : p ∈ ps := by
          rcases List.mem_cons.mp hp with rfl | hmem
          · exact absurd rfl he
          · exact hmem
        rw [List.find?_cons_of_neg _ (by simpa using he), ih htail p hmem]

/-- Looking up the canonical key of an enumerated pattern in a canonical
table retrieves that pattern's cost (the canonical hash is injective on
the enumeration). -/
lemma lookup_create_table_canonical (n : ℕ) (func : ℕ × ℕ → ℤ) (p : ℕ × ℕ)
    (hp : p ∈ create_pattern_generator n) :
    List.lookup (canonical_hash n p) (create_table n func (canonical_hash n)) =
      some (func p) := by
  rw [create_table_last_wins]
  have hnd : ((create_pattern_generator n).reverse.map (canonical_hash n)).Nodup := by
    rw [List.map_reverse]
    exact List.nodup_reverse.mpr (map_canonical_hash_nodup n)
  rw [find?_of_nodup_map (canonical_hash n) (create_pattern_generator n).reverse hnd p
    (List.mem_reverse.mpr hp)]
  rfl

/-! Loss evaluation. -/

lemma sumLookups_eq_none_iff (t : List (ℤ × ℤ)) :
    ∀ ks : List ℤ,
    sumLookups t ks = none ↔ ∃ k ∈ ks, List.lookup k t = none := by
  intro ks
  induction ks with
  | nil => simp [sumLookups]
  | cons k ks ih =>
      rw [sumLookups]
      cases hk : List.lookup k t with
      | none =>
          constructor
          · intro _
            exact ⟨k, List.mem_cons_self k ks, hk⟩
          · intro _
            rfl
      | some v =>
          cases hs : sumLookups t ks with
          | none =>
              constructor
              · intro _
                rcases ih.mp hs with ⟨k', hk', hl⟩
                exact ⟨k', List.mem_cons_of_mem k hk', hl⟩
              · intro _
                rfl
          | some s =>
              constructor
              · intro hc
                cases hc
              · rintro ⟨k', hmem, hl⟩
                rcases List.mem_cons.mp hmem with rfl | hk'
                · rw [hk] at hl
                  cases hl
                · have hco : sumLookups t ks = none := ih.mpr ⟨k', hk', hl⟩
                  rw [hco] at hs
                  cases hs

lemma sumLookups_eq_sum (t : List (ℤ × ℤ)) :
    ∀ ks : List ℤ, (∀ k ∈ ks, List.lookup k t ≠ none) →
    sumLookups t ks = some ((ks.map fun k => (List.lookup k t).getD 0).sum) := by
  intro ks
  induction ks with
  | nil => intro _; simp [sumLookups]
  | cons k ks ih =>
      intro hall
      cases hk : List.lookup k t
      · exact absurd hk (hall k (List.mem_cons_self k ks))
      · rw [sumLookups, hk, ih fun k' hk' => hall k' (List.mem_cons_of_mem k hk')]
        simp [hk]

/-- The loss function on a nonempty decision array with a large enough
store reduces to summing the table entries at the emitted keys. -/
lemma calculate_loss_eq (seg : List ℕ) (store : List ℤ) (t : List (ℤ × ℤ))
    (hne : seg ≠ []) (hstore : (segmentationKeys seg).length ≤ store.length) :
    calculate_loss_function seg store t =
      match sumLookups t (segmentationKeys seg) with
      | none => .error .keyError
      | some loss => .ok loss := by
  unfold calculate_loss_function
  rw [translate_segmentation_spec seg store hne hstore]

/-- C9, amended to nonempty decision arrays: `calculate_loss_function`
fails with the key error exactly when some emitted key is absent from the
supplied table, and otherwise returns the sum of the table's values at
the emitted keys.  (On the empty decision array it fails with the
unbound-variable error before producing any key.) -/
theorem calculate_loss_missing_key (seg : List ℕ) (store : List ℤ)
    (t : List (ℤ × ℤ)) (hne : seg ≠ [])
    (hstore : (segmentationKeys seg).length ≤ store.length) :
    (calculate_loss_function seg store t = .error .keyError ↔
      ∃ k ∈ segmentationKeys seg, List.lookup k t = none)
    ∧ ((∀ k ∈ segmentationKeys seg, List.lookup k t ≠ none) →
        calculate_loss_function seg store t =
          .ok (((segmentationKeys seg).map fun k => (List.lookup k t).getD 0).sum)) := by
  rw [calculate_loss_eq seg store t hne hstore]
  constructor
  · cases hs : sumLookups t (segmentationKeys seg)
    · simp only []
      rw [← sumLookups_eq_none_iff t (segmentationKeys seg), hs]
      simp
    · simp only []
      rw [← sumLookups_eq_none_iff t (segmentationKeys seg), hs]
      simp
  · intro hall
    rw [sumLookups_eq_sum t (segmentationKeys seg) hall]

/-- Witness for C9: decisions `[0]` (two blocks, no merge), a store of
two cells and the table with both singleton keys present. -/
theorem calculate_loss_missing_key_witness :
    (calculate_loss_function [0] [0, 0] [(0, 4), (1, 6)] = .error .keyError ↔
      ∃ k ∈ segmentationKeys [0], List.lookup k [((0 : ℤ), (4 : ℤ)), (1, 6)] = none)
    ∧ ((∀ k ∈ segmentationKeys [0],
          List.lookup k [((0 : ℤ), (4 : ℤ)), (1, 6)] ≠ none) →
        calculate_loss_function [0] [0, 0] [(0, 4), (1, 6)] =
          .ok (((segmentationKeys [0]).map
            fun k => (List.lookup k [((0 : ℤ), (4 : ℤ)), (1, 6)]).getD 0).sum)) :=
  calculate_loss_missing_key [0] [0, 0] [(0, 4), (1, 6)] (by decide) (by decide)

/-- Counterexample to C9 as stated: on the empty decision array (one
block) the loss function fails with the unbound-variable error — not the
key error — and returns no sum, although no produced key is missing from
the table. -/
theorem calculate_loss_empty_counterexample :
    calculate_loss_function [] [0] [(0, 3)] = Except.error PyError.nameError
    ∧ (Except.error PyError.nameError : Except PyError ℤ) ≠
        Except.error PyError.keyError
    ∧ (Except.error PyError.nameError : Except PyError ℤ) ≠ Except.ok 3 :=
  ⟨rfl, fun h => PyError.noConfusion (Except.error.inj h),
   fun h => Except.noConfusion h⟩

/-! Keys of the two extreme segmentations. -/

lemma keysGo_all_zero (arrlen : ℕ) :
    ∀ (m i pos : ℕ),
    segmentationKeysGo arrlen (List.replicate m 0) i true 1 pos =
      (List.range' i (m + 1)).map (fun j : ℕ => (j : ℤ)) := by
  intro m
  induction m with
  | zero =>
      intro i pos
      simp [segmentationKeysGo]
  | succ m ih =>
      intro i pos
      rw [List.replicate_succ, segmentationKeysGo,
        if_neg (by omega : ¬ (0 : ℕ) = 1), if_neg (by omega : ¬ 1 < 1),
        ih (i + 1) pos]
      simp [List.range'_succ]

lemma keysGo_all_one (arrlen : ℕ) :
    ∀ (m i len pos : ℕ), 2 ≤ len →
    segmentationKeysGo arrlen (List.replicate m 1) i false len pos =
      [calculate_pattern_hash ((pos : ℤ), ((len + m : ℕ) : ℤ)) (arrlen : ℤ)] := by
  intro m
  induction m with
  | zero =>
      intro i len pos hlen
      rw [List.replicate_zero, segmentationKeysGo, if_pos (by omega : 1 < len)]
      simp
  | succ m ih =>
      intro i len pos hlen
      rw [List.replicate_succ, segmentationKeysGo, if_pos rfl]
      rw [show (if (false : Bool) = true then i else pos) = pos from rfl]
      rw [ih (i + 1) (len + 1) pos (by omega),
        show len + 1 + m = len + (m + 1) from by omega]

lemma segmentationKeys_all_zero (n : ℕ) (hn : 2 ≤ n) :
    segmentationKeys (List.replicate (n - 1) 0) =
      (List.range' 0 n).map (fun j : ℕ => (j : ℤ)) := by
  rw [segmentationKeys, List.length_replicate, keysGo_all_zero,
    show n - 1 + 1 = n from by omega]

lemma segmentationKeys_all_one (n : ℕ) (hn : 2 ≤ n) :
    segmentationKeys (List.replicate (n - 1) 1) = [canonical_hash n (0, n)] := by
  rw [segmentationKeys, List.length_replicate]
  have hrep : List.replicate (n - 1) 1 = 1 :: List.replicate (n - 2) 1 := by
    rw [show n - 1 = (n - 2) + 1 from by omega, List.replicate_succ]
  rw [hrep, segmentationKeysGo, if_pos rfl]
  rw [show (if (true : Bool) = true then 0 else 0) = 0 from rfl]
  rw [keysGo_all_one _ _ _ _ _ (by omega),
    show (2 : ℕ) + (n - 2) = n from by omega,
    show n - 1 + 1 = n from by omega, canonical_hash]

/-- The singleton key of each block equals its canonical hash. -/
lemma canonical_hash_singleton (n i : ℕ) (_hi : i < n) :
    ((i : ℕ) : ℤ) = canonical_hash n (i, 1) := by
  rw [show (1 : ℕ) = 0 + 1 from rfl, canonical_hash_eval n 0 i (by omega)]
  simp [keyBase]

lemma sumLookups_map_range' (t : List (ℤ × ℤ)) (g : ℕ → ℤ) (gv : ℕ → ℤ) :
    ∀ js : List ℕ, (∀ j ∈ js, List.lookup (g j) t = some (gv j)) →
    sumLookups t (js.map g) = some ((js.map gv).sum) := by
  intro js
  induction js with
  | nil => intro _; simp [sumLookups]
  | cons j js ih =>
      intro hall
      rw [List.map_cons, sumLookups, hall j (List.mem_cons_self j js),
        ih fun j' hj' => hall j' (List.mem_cons_of_mem j hj'), List.map_cons,
        List.sum_cons]

/-- C4, amended to `n_blocks ≥ 2`: against the table built with the
canonical hash (the `arrlen = n_blocks` usage that `translate_segmentation`
itself establishes), the loss of the all-zero decision string is the sum
of the `n_blocks` singleton costs, and the loss of the all-one decision
string is the single full-span pattern's cost. -/
theorem calculate_loss_extremes (n : ℕ) (hn : 2 ≤ n) (func : ℕ × ℕ → ℤ)
    (store : List ℤ) (hstore : n ≤ store.length) :
    calculate_loss_function (List.replicate (n - 1) 0) store
        (create_table n func (canonical_hash n)) =
      .ok (((List.range n).map fun i => func (i, 1)).sum)
    ∧ calculate_loss_function (List.replicate (n - 1) 1) store
        (create_table n func (canonical_hash n)) =
      .ok (func (0, n)) := by
  constructor
  · have hne : List.replicate (n - 1) 0 ≠ ([] : List ℕ) := by
      intro hc
      have := congrArg List.length hc
      simp at this
      omega
    have hkeys := segmentationKeys_all_zero n hn
    have hklen : (segmentationKeys (List.replicate (n - 1) 0)).length ≤ store.length := by
      rw [hkeys, List.length_map, List.length_range']
      omega
    rw [calculate_loss_eq _ store _ hne hklen, hkeys,
      sumLookups_map_range' _ _ (fun i => func (i, 1)) (List.range' 0 n) ?lookups]
    · rw [List.range_eq_range']
    case lookups =>
      intro j hj
      have hjn : j < n := by
        have := List.mem_range'_1.mp hj
        omega
      rw [canonical_hash_singleton n j hjn]
      exact lookup_create_table_canonical n func (j, 1)
        ((mem_create_pattern_generator n (j, 1)).mpr (by constructor <;> omega))
  · have hne : List.replicate (n - 1) 1 ≠ ([] : List ℕ) := by
      intro hc
      have := congrArg List.length hc
      simp at this
      omega
    have hkeys := segmentationKeys_all_one n hn
    have hklen : (segmentationKeys (List.replicate (n - 1) 1)).length ≤ store.length := by
      rw [hkeys]
      simp
      omega
    rw [calculate_loss_eq _ store _ hne hklen, hkeys, sumLookups,
      lookup_create_table_canonical n func (0, n)
        ((mem_create_pattern_generator n (0, n)).mpr (by constructor <;> omega)),
      sumLookups]
    simp

/-- Witness for C4 at `n_blocks = 3` with cost `position + 10·length`. -/
theorem calculate_loss_extremes_witness :
    calculate_loss_function (List.replicate (3 - 1) 0) [0, 0, 0]
        (create_table 3 (fun p => (p.1 : ℤ) + 10 * p.2) (canonical_hash 3)) =
      .ok (((List.range 3).map fun i => ((i : ℤ) + 10 * 1 : ℤ)).sum)
    ∧ calculate_loss_function (List.replicate (3 - 1) 1) [0, 0, 0]
        (create_table 3 (fun p => (p.1 : ℤ) + 10 * p.2) (canonical_hash 3)) =
      .ok (((0 : ℤ) + 10 * 3 : ℤ)) :=
  calculate_loss_extremes 3 (by omega) (fun p => (p.1 : ℤ) + 10 * p.2) [0, 0, 0]
    (by simp)

/-- Counterexample to C4 as stated: at `n_blocks = 1` the all-zero
decision string is empty, and the loss function fails with the
unbound-variable error instead of returning the single singleton cost
(`0` for the cost function `position`). -/
theorem calculate_loss_extremes_single_block_counterexample :
    calculate_loss_function [] [0]
        (create_table 1 (fun p => (p.1 : ℤ)) (canonical_hash 1)) =
      Except.error PyError.nameError
    ∧ (Except.error PyError.nameError : Except PyError ℤ) ≠ Except.ok 0 :=
  ⟨rfl, fun h => Except.noConfusion h⟩

/-! Block index computation. -/

lemma sum_ite_range (q r : ℕ) :
    ∀ m : ℕ,
    ((List.range m).map (fun k => if k < r then q + 1 else q)).sum =
      m * q + min r m := by
  intro m
  induction m with
  | zero => simp
  | succ m ih =>
      rw [List.range_succ, List.map_append, List.sum_append, ih]
      by_cases hm : m < r
      · rw [List.map_singleton, List.sum_singleton, if_pos hm, Nat.succ_mul]
        omega
      · rw [List.map_singleton, List.sum_singleton, if_neg hm, Nat.succ_mul]
        omega

lemma splitSizes_sum (l n : ℕ) (hn : 1 ≤ n) : (splitSizes l n).sum = l := by
  unfold splitSizes
  rw [sum_ite_range]
  have h1 := Nat.div_add_mod l n
  have h2 : l % n < n := Nat.mod_lt _ (by omega)
  omega

lemma splitSizes_length (l n : ℕ) : (splitSizes l n).length = n := by
  unfold splitSizes
  rw [List.length_map, List.length_range]

lemma splitSizes_pos (l n : ℕ) (hn : 1 ≤ n) (hln : n ≤ l) :
    ∀ s ∈ splitSizes l n, 1 ≤ s := by
  intro s hs
  unfold splitSizes at hs
  rcases List.mem_map.mp hs with ⟨k, _, rfl⟩
  have hq : 1 ≤ l / n := (Nat.one_le_div_iff (by omega)).mpr hln
  by_cases hk : k < l % n
  · rw [if_pos hk]
    omega
  · rw [if_neg hk]
    omega

lemma boundsFromSizes_length :
    ∀ (sizes : List ℕ) (start : ℕ),
    (boundsFromSizes start sizes).length = sizes.length := by
  intro sizes
  induction sizes with
  | nil => intro _; rfl
  | cons s sizes ih =>
      intro start
      rw [boundsFromSizes, List.length_cons, List.length_cons, ih]

lemma boundsFromSizes_cover :
    ∀ (sizes : List ℕ) (start : ℕ), (∀ s ∈ sizes, 1 ≤ s) →
    ((boundsFromSizes start sizes).flatMap
        fun p => List.range' p.1 (p.2 + 1 - p.1)) =
      List.range' start sizes.sum := by
  intro sizes
  induction sizes with
  | nil =>
      intro start _
      simp [boundsFromSizes]
  | cons s sizes ih =>
      intro start hpos
      have hs : 1 ≤ s := hpos s (List.mem_cons_self s sizes)
      rw [boundsFromSizes, List.flatMap_cons,
        ih (start + s) fun s' hs' => hpos s' (List.mem_cons_of_mem s hs'),
        show start + s - 1 + 1 - start = s from by omega, List.sum_cons,
        show s + sizes.sum = sizes.sum + s from by omega,
        ← List.range'_append_1 start s sizes.sum]

lemma boundsFromSizes_sizes :
    ∀ (sizes : List ℕ) (start : ℕ), (∀ s ∈ sizes, 1 ≤ s) →
    (boundsFromSizes start sizes).map (fun p => p.2 + 1 - p.1) = sizes := by
  intro sizes
  induction sizes with
  | nil => intro _ _; rfl
  | cons s sizes ih =>
      intro start hpos
      have hs : 1 ≤ s := hpos s (List.mem_cons_self s sizes)
      rw [boundsFromSizes, List.map_cons,
        ih (start + s) fun s' hs' => hpos s' (List.mem_cons_of_mem s hs'),
        show start + s - 1 + 1 - start = s from by omega]

/-- C7: for `1 ≤ n_blocks ≤ series_length`, `calculate_block_indices`
returns exactly `n_blocks` inclusive index pairs whose ranges tile
`[0, series_length)` in order with no gaps or overlaps (so the first pair
starts at 0, the last ends at `series_length - 1`, and consecutive pairs
are adjacent), with block sizes non-increasing and differing by at most
one. -/
theorem calculate_block_indices_partition (l n : ℕ) (h1 : 1 ≤ n) (h2 : n ≤ l) :
    ∃ bs : List (ℕ × ℕ),
      calculate_block_indices l (n : ℤ) = .ok bs
      ∧ bs.length = n
      ∧ (bs.flatMap fun p => List.range' p.1 (p.2 + 1 - p.1)) = List.range l
      ∧ ∀ (i j : ℕ) (hi : i < bs.length) (hj : j < bs.length), i ≤ j →
          bs[j].2 + 1 - bs[j].1 ≤ bs[i].2 + 1 - bs[i].1
          ∧ bs[i].2 + 1 - bs[i].1 ≤ bs[j].2 + 1 - bs[j].1 + 1 := by
  have hpos := splitSizes_pos l n h1 h2
  have hlen : (boundsFromSizes 0 (splitSizes l n)).length = n := by
    rw [boundsFromSizes_length, splitSizes_length]
  refine ⟨boundsFromSizes 0 (splitSizes l n), ?_, hlen, ?_, ?_⟩
  · unfold calculate_block_indices
    rw [if_neg (by exact_mod_cast not_lt.mpr (by exact_mod_cast h2)),
      if_neg (by omega), Int.toNat_natCast]
  · rw [boundsFromSizes_cover (splitSizes l n) 0 hpos, splitSizes_sum l n h1,
      List.range_eq_range']
  · intro i j hi hj hij
    have hsz : ∀ (m : ℕ) (hm : m < (boundsFromSizes 0 (splitSizes l n)).length),
        (boundsFromSizes 0 (splitSizes l n))[m].2 + 1 -
            (boundsFromSizes 0 (splitSizes l n))[m].1 =
          if m < l % n then l / n + 1 else l / n := by
      intro m hm
      have hmap := boundsFromSizes_sizes (splitSizes l n) 0 hpos
      have hmn : m < n := by omega
      have hq : ((boundsFromSizes 0 (splitSizes l n)).map
          (fun p => p.2 + 1 - p.1))[m]? = (splitSizes l n)[m]? := by
        rw [hmap]
      rw [List.getElem?_map, List.getElem?_eq_getElem hm] at hq
      unfold splitSizes at hq
      rw [List.getElem?_map, List.getElem?_range hmn] at hq
      simpa using hq
    rw [hsz i hi, hsz j hj]
    by_cases hir : i < l % n <;> by_cases hjr : j < l % n
    · rw [if_pos hir, if_pos hjr]
      omega
    · rw [if_pos hir, if_neg hjr]
      omega
    · omega
    · rw [if_neg hir, if_neg hjr]
      omega

/-- Witness for C7 at `series_length = 5`, `n_blocks = 2`. -/
theorem calculate_block_indices_partition_witness :
    ∃ bs : List (ℕ × ℕ),
      calculate_block_indices 5 ((2 : ℕ) : ℤ) = .ok bs
      ∧ bs.length = 2
      ∧ (bs.flatMap fun p => List.range' p.1 (p.2 + 1 - p.1)) = List.range 5
      ∧ ∀ (i j : ℕ) (hi : i < bs.length) (hj : j < bs.length), i ≤ j →
          bs[j].2 + 1 - bs[j].1 ≤ bs[i].2 + 1 - bs[i].1
          ∧ bs[i].2 + 1 - bs[i].1 ≤ bs[j].2 + 1 - bs[j].1 + 1 :=
  calculate_block_indices_partition 5 2 (by omega) (by omega)

/-- C8: `calculate_block_indices` fails for every `n_blocks` exceeding
the series length (the module's own `IndexError` guard) and for every
zero or negative `n_blocks` (`ValueError` inside `numpy.array_split`) —
both are configuration errors in the spec's taxonomy — and returns
normally whenever `1 ≤ n_blocks ≤ series_length`. -/
theorem calculate_block_indices_errors (l : ℕ) (n : ℤ) :
    ((l : ℤ) < n → calculate_block_indices l n = .error .indexError)
    ∧ (n ≤ 0 → calculate_block_indices l n = .error .valueError)
    ∧ (1 ≤ n → n ≤ (l : ℤ) →
        ∃ bs, calculate_block_indices l n = .ok bs) := by
  refine ⟨?_, ?_, ?_⟩
  · intro h
    unfold calculate_block_indices
    rw [if_pos h]
  · intro h
    unfold calculate_block_indices
    have hl : (0 : ℤ) ≤ (l : ℤ) := Int.ofNat_nonneg l
    rw [if_neg (by omega), if_pos h]
  · intro hn1 hn2
    unfold calculate_block_indices
    rw [if_neg (by omega), if_neg (by omega)]
    exact ⟨_, rfl⟩

/-- Witness for C8: `series_length = 3` with `n_blocks` 5, -1 and 2. -/
theorem calculate_block_indices_errors_witness :
    calculate_block_indices 3 5 = .error .indexError
    ∧ calculate_block_indices 3 (-1) = .error .valueError
    ∧ ∃ bs, calculate_block_indices 3 2 = .ok bs :=
  ⟨(calculate_block_indices_errors 3 5).1 (by norm_num),
   (calculate_block_indices_errors 3 (-1)).2.1 (by norm_num),
   (calculate_block_indices_errors 3 2).2.2 (by norm_num) (by norm_num)⟩

end HashBrown
